import Mathlib

/-!
Shallow embedding of the fairseq-py preprocessing script (`preprocess.py`).

The script's alignment aggregator (lines 107-143 of `preprocess.py`) reads an
alignment file, a source file and a target file in lockstep via
`itertools.zip_longest`, tokenizes each source/target line against a fixed
dictionary without vocabulary extension, parses `"i-j"` alignment pair tokens,
accumulates a source-index -> target-index -> count frequency table, and emits
one `"<srcSymbol> <tgtSymbol>"` line per source index using
`max(freq_map[srcidx], key=freq_map[srcidx].get)`.

The `fairseq.dictionary`, `fairseq.tokenizer` and `fairseq.indexed_dataset`
modules are not part of the provided source; their behaviour is modelled from
the specification where needed (each such definition says so in its doc
comment).  Python dicts preserve insertion order, so frequency tables are
embedded as insertion-ordered association lists.
-/

namespace FairseqPreprocess

/-- Modelled from the spec: reserved control-symbol index for pad.  The spec
(§3) fixes the four reserved symbols pad, end-of-sequence, unknown, begin at
stable indices 0..3; `fairseq/dictionary.py` itself is not in `src/`. -/
def padIdx : Nat := 0

/-- Modelled from the spec: reserved end-of-sequence index (see `padIdx`). -/
def eosIdx : Nat := 1

/-- Modelled from the spec: reserved unknown-symbol index (see `padIdx`). -/
def unkIdx : Nat := 2

/-- Modelled from the spec: reserved begin-of-sequence index (see `padIdx`). -/
def bosIdx : Nat := 3

/-- Reserved pad symbol string. -/
def padWord : String := "<pad>"

/-- Reserved end-of-sequence symbol string. -/
def eosWord : String := "</s>"

/-- Reserved unknown symbol string. -/
def unkWord : String := "<unk>"

/-- Reserved begin-of-sequence symbol string. -/
def bosWord : String := "<s>"

/-- Modelled from the spec: a finalized dictionary (`fairseq/dictionary.py` is
not in `src/`).  `entries` holds the non-reserved `(symbol, count)` pairs in
index order; entry `j` has token index `4 + j`, after the four reserved
symbols at indices 0..3 (spec §3). -/
structure Dictionary where
  entries : List (String × Nat)
deriving DecidableEq

/-- Position of symbol `w` among the non-reserved entries, if present. -/
def entryIndex (w : String) : List (String × Nat) → Option Nat
  | [] => none
  | p :: rest => if p.1 = w then some 0 else (entryIndex w rest).map (fun n => n + 1)

/-- Modelled from the spec: `lookup(symbol)` returns the symbol's index, or the
unknown index if absent; it never fails (spec §4.1). -/
def Dictionary.lookup (d : Dictionary) (w : String) : Nat :=
  if w = padWord then padIdx
  else if w = eosWord then eosIdx
  else if w = unkWord then unkIdx
  else if w = bosWord then bosIdx
  else
    match entryIndex w d.entries with
    | some j => 4 + j
    | none => unkIdx

/-- Modelled from the spec: index-to-string direction of the dictionary
(`src_dict[k]` in `preprocess.py` line 143); out-of-range indices render as the
unknown symbol. -/
def Dictionary.getSymbol (d : Dictionary) (i : Nat) : String :=
  if i = padIdx then padWord
  else if i = eosIdx then eosWord
  else if i = unkIdx then unkWord
  else if i = bosIdx then bosWord
  else
    match d.entries.get? (i - 4) with
    | some p => p.1
    | none => unkWord

/-- Modelled from the spec: `add(symbol)` registers the symbol if new at the
next available index and increments its count (spec §4.1); returns the updated
dictionary and the symbol's index. -/
def Dictionary.addSymbol (d : Dictionary) (w : String) : Dictionary × Nat :=
  match entryIndex w d.entries with
  | some j =>
      (⟨d.entries.map (fun p => if p.1 = w then (p.1, p.2 + 1) else p)⟩, 4 + j)
  | none => (⟨d.entries ++ [(w, 1)]⟩, 4 + d.entries.length)

/-- Modelled from the spec: mapping of one word through the dictionary, with or
without vocabulary extension (`add_if_not_exist` in `Tokenizer.tokenize`,
which is not in `src/`; spec §4.3). -/
def tokenizeWord (extend : Bool) (d : Dictionary) (w : String) : Dictionary × Nat :=
  if extend then d.addSymbol w else (d, d.lookup w)

/-- Modelled from the spec: `Tokenizer.tokenize` maps each word of the line to
an index and appends the end-of-sequence index as the final element
(spec §4.3); the line is already split into words (the splitting rule is the
external tokenizer's contract, spec §6).  Returns the (possibly extended)
dictionary together with the index sequence. -/
def tokenizeLine (extend : Bool) (d : Dictionary) : List String → Dictionary × List Nat
  | [] => (d, [eosIdx])
  | w :: rest =>
      let r1 := tokenizeWord extend d w
      let r2 := tokenizeLine extend r1.1 rest
      (r2.1, r1.2 :: r2.2)

/-- Split a character list at every dash, mirroring Python's
`x.split('-')`: the empty string yields `[""]`, and leading/trailing or
repeated dashes yield empty fields. -/
def splitOnDash : List Char → List (List Char)
  | [] => [[]]
  | c :: rest =>
      if c = '-' then [] :: splitOnDash rest
      else
        match splitOnDash rest with
        | [] => [[c]]
        | g :: gs => (c :: g) :: gs

/-- Value of a nonempty all-digit character list, `none` otherwise. -/
def digitsToNat (cs : List Char) : Option Nat :=
  if cs = [] then none
  else
    cs.foldl
      (fun acc c =>
        match acc with
        | none => none
        | some n => if c.isDigit then some (n * 10 + (c.toNat - 48)) else none)
      (some 0)

/-- Python `int()` applied to one dash-split field: optional leading plus sign
followed by a nonempty digit string (underscore digit grouping accepted by
Python is not modelled; no field produced by `split('-')` can carry a minus
sign). -/
def parseIntCs : List Char → Option Nat
  | '+' :: rest => digitsToNat rest
  | cs => digitsToNat cs

/-- Parsing of one alignment pair token (`preprocess.py` lines 119-122):
`tuple(x.split('-'))` must have exactly two fields (the `for sai, tai in ai`
unpacking raises otherwise) and both fields must parse as integers
(`int(sai)`, `int(tai)` raise otherwise). -/
def parsePair (tok : String) : Option (Nat × Nat) :=
  match splitOnDash tok.data with
  | [a, b] =>
      match parseIntCs a, parseIntCs b with
      | some i, some j => some (i, j)
      | _, _ => none
  | _ => none

/-- Whether key `k` occurs in the association list (Python's `in` on a dict). -/
def hasKey (k : Nat) : List (Nat × α) → Bool
  | [] => false
  | p :: rest => p.1 = k || hasKey k rest

/-- Insertion-ordered target-index -> count table (one `freq_map[srcidx]`). -/
abbrev SubTable := List (Nat × Nat)

/-- Insertion-ordered source-index -> sub-table map (`freq_map`). -/
abbrev FreqMap := List (Nat × SubTable)

/-- Fatal conditions of the aggregator; in Python each is an uncaught
exception terminating the run. -/
inductive AggError where
  /-- A `None` fill value from `zip_longest` reached line processing
  (AttributeError on `None` in Python): the three files' line counts differ. -/
  | lengthMismatch
  /-- Malformed alignment pair token (ValueError from tuple unpacking or
  `int()`). -/
  | parseError
  /-- Alignment position outside the tokenized index sequence (IndexError). -/
  | indexError
  /-- One of the four `assert` statements at lines 124-127 failed. -/
  | assertionError
deriving DecidableEq

/-- State carried through the aggregation loop: the two dictionaries and the
frequency table. -/
structure AggSt where
  srcDict : Dictionary
  tgtDict : Dictionary
  freq : FreqMap
deriving DecidableEq

/-- Increment of `freq_map[srcidx][tgtidx]` (`preprocess.py` lines 131-134):
a fresh target key is appended with count 1, an existing one is bumped in
place. -/
def incrSub (sub : SubTable) (t : Nat) : SubTable :=
  if hasKey t sub then sub.map (fun q => if q.1 = t then (q.1, q.2 + 1) else q)
  else sub ++ [(t, 1)]

/-- Update of the outer table (`preprocess.py` lines 129-134): ensure
`freq_map[srcidx]` exists, then increment the target count inside it. -/
def incrFreq (freq : FreqMap) (s t : Nat) : FreqMap :=
  let freq1 := if hasKey s freq then freq else freq ++ [(s, ([] : SubTable))]
  freq1.map (fun p => if p.1 = s then (p.1, incrSub p.2 t) else p)

/-- Body of the per-pair loop after index resolution (`preprocess.py` lines
123-134): if either resolved index is the unknown index the pair is skipped,
otherwise the four asserts check against pad/eos and the pair is counted. -/
def countPair (freq : FreqMap) (srcidx tgtidx : Nat) : Except AggError FreqMap :=
  if srcidx ≠ unkIdx ∧ tgtidx ≠ unkIdx then
    if srcidx = padIdx ∨ srcidx = eosIdx ∨ tgtidx = padIdx ∨ tgtidx = eosIdx then
      .error .assertionError
    else .ok (incrFreq freq srcidx tgtidx)
  else .ok freq

/-- Processing of the alignment pair tokens of one line (`preprocess.py` lines
119-134): each token is parsed, positions are resolved into the tokenized
index sequences (`si[int(sai)]`, `ti[int(tai)]`), and the pair is counted. -/
def processPairs (srcIds tgtIds : List Nat) (freq : FreqMap) : List String → Except AggError FreqMap
  | [] => .ok freq
  | tok :: rest =>
      match parsePair tok with
      | none => .error .parseError
      | some pr =>
          match srcIds.get? pr.1, tgtIds.get? pr.2 with
          | some srcidx, some tgtidx =>
              match countPair freq srcidx tgtidx with
              | .error e => .error e
              | .ok f2 => processPairs srcIds tgtIds f2 rest
          | _, _ => .error .indexError

/-- One lockstep record.  Components are the alignment line's pair tokens, the
source line's words and the target line's words; `none` is the `zip_longest`
fill value for an exhausted file. -/
abbrev Rec3 := Option (List String) × Option (List String) × Option (List String)

/-- Processing of one lockstep record (`preprocess.py` lines 116-134).  A
`None` component is fatal: Python raises AttributeError on `None.split()` or
on tokenizing `None`. -/
def aggStep (st : AggSt) (r : Rec3) : Except AggError AggSt :=
  match r with
  | (some a, some s, some t) =>
      let sres := tokenizeLine false st.srcDict s
      let tres := tokenizeLine false st.tgtDict t
      match processPairs sres.2 tres.2 st.freq a with
      | .error e => .error e
      | .ok f => .ok ⟨sres.1, tres.1, f⟩
  | _ => .error .lengthMismatch

/-- The aggregation loop over the zipped records. -/
def aggLoop (st : AggSt) : List Rec3 → Except AggError AggSt
  | [] => .ok st
  | r :: rest =>
      match aggStep st r with
      | .error e => .error e
      | .ok st1 => aggLoop st1 rest

/-- Helper for `zipLongest3` once the first list is exhausted. -/
def pad2 : List (List String) → List (List String) → List Rec3
  | [], cs => cs.map (fun c => (none, none, some c))
  | b :: bs, cs => (none, some b, cs.head?) :: pad2 bs cs.tail

/-- Embedding of `itertools.zip_longest(align_file, src_file, tgt_file)`
(`preprocess.py` line 116) with fill value `none`. -/
def zipLongest3 : List (List String) → List (List String) → List (List String) → List Rec3
  | [], bs, cs => pad2 bs cs
  | a :: as, bs, cs => (some a, bs.head?, cs.head?) :: zipLongest3 as bs.tail cs.tail

/-- The alignment aggregator (`preprocess.py` lines 112-134): lines of the
three files are zipped with padding and folded through `aggStep` starting from
an empty frequency table.  Alignment lines are given as their
whitespace-separated pair tokens, source/target lines as their words. -/
def aggregate (sd td : Dictionary) (aligns srcs tgts : List (List String)) : Except AggError AggSt :=
  aggLoop ⟨sd, td, []⟩ (zipLongest3 aligns srcs tgts)

/-- Embedding of Python's `max(m, key=m.get)` over a nonempty insertion-ordered
table: later entries replace the running best only on a strictly greater
count, so the first key attaining the maximum wins.  `maxByGet` of the empty
table is unreachable in the script (sub-tables are created nonempty; Python's
`max` raises there). -/
def maxEntry : Nat × Nat → List (Nat × Nat) → Nat × Nat
  | best, [] => best
  | best, q :: rest => maxEntry (if q.2 > best.2 then q else best) rest

/-- Key selected by `max(freq_map[srcidx], key=freq_map[srcidx].get)`
(`preprocess.py` line 138). -/
def maxByGet : SubTable → Nat
  | [] => 0
  | q :: rest => (maxEntry q rest).1

/-- Python dict assignment `m[k] = v` on an association list: an existing key
is overwritten in place, a fresh key is appended. -/
def assocSet (m : List (Nat × Nat)) (k v : Nat) : List (Nat × Nat) :=
  if hasKey k m then m.map (fun q => if q.1 = k then (k, v) else q)
  else m ++ [(k, v)]

/-- Construction of `align_dict` (`preprocess.py` lines 136-138): iterate the
frequency table's keys in order and assign each its argmax target index. -/
def alignDictOf (freq : FreqMap) : List (Nat × Nat) :=
  freq.foldl (fun m p => assocSet m p.1 (maxByGet p.2)) []

/-- Lines of the alignment output file (`preprocess.py` lines 140-143): one
`print('{} {}'.format(src_dict[k], tgt_dict[v]))` per `align_dict` item, in
iteration order. -/
def outputLines (st : AggSt) : List String :=
  (alignDictOf st.freq).map
    (fun p => st.srcDict.getSymbol p.1 ++ " " ++ st.tgtDict.getSymbol p.2)

/-- Statistics and consumed items of one binarization pass. -/
structure BinStats where
  nseq : Nat
  ntok : Nat
  nunk : Nat
  items : List (List Nat)
deriving DecidableEq

/-- Modelled from the spec: `Tokenizer.binarize` (not in `src/`; spec §4.3)
streams the file line by line, encodes each line without vocabulary extension
(end-of-sequence appended), feeds each encoded sequence to the consumer in
file order, and accumulates sentence, token and unknown counts; the token
count is the total number of encoded elements and the unknown count the
number of elements that resolved to the unknown index. -/
def binarize (d : Dictionary) : List (List String) → BinStats
  | [] => ⟨0, 0, 0, []⟩
  | ws :: rest =>
      let ids := (tokenizeLine false d ws).2
      let r := binarize d rest
      ⟨r.nseq + 1, ids.length + r.ntok, ids.count unkIdx + r.nunk, ids :: r.items⟩

/-- Dataset-builder state: the items appended so far and whether `finalize`
has written the index artifact. -/
structure DSState where
  items : List (List Nat)
  finalized : Bool
deriving DecidableEq

/-- Embedding of `make_binary_dataset` (`preprocess.py` lines 66-85) after
binarization: the statistics line computes `100 * res['nunk'] / res['ntok']`
(line 82) before `ds.finalize` (line 83), so a zero token count raises
ZeroDivisionError and leaves the dataset unfinalized.  Returns the builder
state together with the reported replaced percentage (or the error). -/
def makeBinaryDataset (d : Dictionary) (lines : List (List String)) : DSState × Except String ℚ :=
  let r := binarize d lines
  let ds : DSState := ⟨r.items, false⟩
  if r.ntok = 0 then (ds, .error "ZeroDivisionError")
  else ({ ds with finalized := true }, .ok ((100 * (r.nunk : ℚ)) / (r.ntok : ℚ)))

/-- Total element count of a list of encoded items. -/
def elemTotal (items : List (List Nat)) : Nat :=
  (items.map List.length).sum

/-- Number of encoded elements that resolved to the unknown index. -/
def elemUnkCount (items : List (List Nat)) : Nat :=
  (items.map (fun ids => ids.count unkIdx)).sum

/-- Structural invariant of the frequency table maintained by the loop: outer
keys are pairwise distinct (Python dict keys are unique) and every sub-table
is nonempty (a source key is only ever created together with its first target
entry). -/
def goodFreq (freq : FreqMap) : Prop :=
  (freq.map Prod.fst).Nodup ∧ ∀ p ∈ freq, p.2 ≠ []

/-- Concrete source dictionary with the single symbol `a` (index 4). -/
def sdA : Dictionary := ⟨[("a", 1)]⟩

/-- Concrete target dictionary with the single symbol `x` (index 4). -/
def tdX : Dictionary := ⟨[("x", 1)]⟩

/-- Concrete source dictionary of the spec's worked example: symbols `a`, `b`
at indices 4, 5. -/
def sdAB : Dictionary := ⟨[("a", 1), ("b", 1)]⟩

/-- Concrete target dictionary of the spec's worked example: symbols `x`, `y`
at indices 4, 5. -/
def tdXY : Dictionary := ⟨[("x", 1), ("y", 1)]⟩

/-! ## Basic lemmas -/

theorem tokenizeLine_false_fst (d : Dictionary) (ws : List String) :
    (tokenizeLine false d ws).1 = d := by
  induction ws generalizing d with
  | nil => rfl
  | cons w rest ih => simp [tokenizeLine, tokenizeWord, ih]

theorem hasKey_iff {α : Type} (k : Nat) (l : List (Nat × α)) :
    hasKey k l = true ↔ k ∈ l.map Prod.fst := by
  induction l with
  | nil => simp [hasKey]
  | cons p rest ih =>
    simp only [hasKey, Bool.or_eq_true, decide_eq_true_eq, ih, List.map_cons,
      List.mem_cons]
    exact or_congr_left eq_comm

theorem hasKey_false_iff {α : Type} (k : Nat) (l : List (Nat × α)) :
    hasKey k l = false ↔ k ∉ l.map Prod.fst := by
  rw [← hasKey_iff k l]
  cases hasKey k l <;> simp

theorem hasKey_append {α : Type} (k : Nat) (l1 l2 : List (Nat × α)) :
    hasKey k (l1 ++ l2) = (hasKey k l1 || hasKey k l2) := by
  induction l1 with
  | nil => simp [hasKey]
  | cons p rest ih => simp [hasKey, ih, Bool.or_assoc]

theorem map_fst_ite_update {β : Type} (l : List (Nat × β)) (s : Nat) (g : Nat × β → β) :
    ((l.map fun p => if p.1 = s then (p.1, g p) else p).map Prod.fst)
      = l.map Prod.fst := by
  induction l with
  | nil => rfl
  | cons p rest ih =>
    by_cases h : p.1 = s <;> simp [h, ih]

theorem incrSub_ne_nil (sub : SubTable) (t : Nat) : incrSub sub t ≠ [] := by
  unfold incrSub
  by_cases h : hasKey t sub = true
  · cases sub with
    | nil => simp [hasKey] at h
    | cons q rest => simp [h]
  · simp [h]

theorem incrFreq_map_fst (freq : FreqMap) (s t : Nat) :
    (incrFreq freq s t).map Prod.fst =
      if hasKey s freq then freq.map Prod.fst else freq.map Prod.fst ++ [s] := by
  unfold incrFreq
  by_cases h : hasKey s freq = true
  · rw [if_pos h, if_pos h, map_fst_ite_update]
  · rw [if_neg h, if_neg h, map_fst_ite_update]
    simp

theorem incrFreq_good (freq : FreqMap) (s t : Nat) (h : goodFreq freq) :
    goodFreq (incrFreq freq s t) := by
  constructor
  · rw [incrFreq_map_fst]
    by_cases hk : hasKey s freq = true
    · simp [hk, h.1]
    · simp only [hk, Bool.false_eq_true, if_false]
      have hs : s ∉ freq.map Prod.fst := (hasKey_false_iff s freq).mp (by simpa using hk)
      simp [List.nodup_append, h.1, hs]
  · intro p' hp'
    unfold incrFreq at hp'
    rw [List.mem_map] at hp'
    obtain ⟨p, hp, rfl⟩ := hp'
    by_cases hps : p.1 = s
    · simp [hps, incrSub_ne_nil]
    · simp only [hps, if_false]
      by_cases hk : hasKey s freq = true
      · rw [if_pos hk] at hp
        exact h.2 p hp
      · rw [if_neg hk, List.mem_append] at hp
        rcases hp with hp | hp
        · exact h.2 p hp
        · simp only [List.mem_singleton] at hp
          exfalso
          rw [hp] at hps
          exact hps rfl

theorem countPair_good (freq f2 : FreqMap) (srcidx tgtidx : Nat)
    (h : countPair freq srcidx tgtidx = .ok f2) (hg : goodFreq freq) : goodFreq f2 := by
  unfold countPair at h
  split at h
  · split at h
    · exact absurd h (by simp)
    · rw [Except.ok.injEq] at h
      rw [← h]
      exact incrFreq_good freq srcidx tgtidx hg
  · rw [Except.ok.injEq] at h
    rw [← h]
    exact hg

theorem processPairs_good (si ti : List Nat) (freq f2 : FreqMap) (toks : List String)
    (h : processPairs si ti freq toks = .ok f2) (hg : goodFreq freq) : goodFreq f2 := by
  induction toks generalizing freq with
  | nil =>
    rw [processPairs, Except.ok.injEq] at h
    rw [← h]; exact hg
  | cons tok rest ih =>
    rw [processPairs] at h
    split at h
    · exact absurd h (by simp)
    · split at h
      · split at h
        · exact absurd h (by simp)
        · rename_i f3 hf3
          exact ih f3 h (countPair_good freq f3 _ _ hf3 hg)
      · exact absurd h (by simp)

theorem processPairs_ok_parse (si ti : List Nat) (freq f2 : FreqMap) (toks : List String)
    (h : processPairs si ti freq toks = .ok f2) :
    ∀ tok ∈ toks, parsePair tok ≠ none := by
  induction toks generalizing freq with
  | nil => simp
  | cons tok rest ih =>
    rw [processPairs] at h
    split at h
    · exact absurd h (by simp)
    · rename_i pr hpr
      split at h
      · rename_i srcidx tgtidx hsrc htgt
        split at h
        · exact absurd h (by simp)
        · rename_i f3 hf3
          intro tk htk
          rcases List.mem_cons.mp htk with rfl | htk
          · simp [hpr]
          · exact ih f3 h tk htk
      · exact absurd h (by simp)

theorem aggStep_ok (st st' : AggSt) (r : Rec3) (h : aggStep st r = .ok st') :
    ∃ a s t, r = (some a, some s, some t) ∧
      st'.srcDict = st.srcDict ∧ st'.tgtDict = st.tgtDict ∧
      processPairs (tokenizeLine false st.srcDict s).2 (tokenizeLine false st.tgtDict t).2
        st.freq a = .ok st'.freq := by
  obtain ⟨a?, s?, t?⟩ := r
  cases a? with
  | none => exact absurd h (by simp [aggStep])
  | some a =>
    cases s? with
    | none => exact absurd h (by simp [aggStep])
    | some s =>
      cases t? with
      | none => exact absurd h (by simp [aggStep])
      | some t =>
        refine ⟨a, s, t, rfl, ?_⟩
        rw [aggStep] at h
        split at h
        · exact absurd h (by simp)
        · rename_i f hf
          rw [Except.ok.injEq] at h
          rw [← h]
          exact ⟨tokenizeLine_false_fst _ _, tokenizeLine_false_fst _ _, hf⟩

theorem aggLoop_ok_forall (st st2 : AggSt) (l : List Rec3) (h : aggLoop st l = .ok st2) :
    ∀ r ∈ l, ∃ st1 st1', aggStep st1 r = .ok st1' := by
  induction l generalizing st with
  | nil => simp
  | cons r0 rest ih =>
    rw [aggLoop] at h
    split at h
    · exact absurd h (by simp)
    · rename_i st1 hstep
      intro r hr
      rcases List.mem_cons.mp hr with rfl | hr
      · exact ⟨st, st1, hstep⟩
      · exact ih st1 h r hr

theorem aggLoop_dicts (st st2 : AggSt) (l : List Rec3) (h : aggLoop st l = .ok st2) :
    st2.srcDict = st.srcDict ∧ st2.tgtDict = st.tgtDict := by
  induction l generalizing st with
  | nil =>
    rw [aggLoop, Except.ok.injEq] at h
    rw [h]
    exact ⟨rfl, rfl⟩
  | cons r0 rest ih =>
    rw [aggLoop] at h
    split at h
    · exact absurd h (by simp)
    · rename_i st1 hstep
      obtain ⟨_, _, _, _, h1, h2, _⟩ := aggStep_ok st st1 r0 hstep
      obtain ⟨h3, h4⟩ := ih st1 h
      exact ⟨h3.trans h1, h4.trans h2⟩

theorem aggLoop_goodFreq (st st2 : AggSt) (l : List Rec3) (h : aggLoop st l = .ok st2)
    (hg : goodFreq st.freq) : goodFreq st2.freq := by
  induction l generalizing st with
  | nil =>
    rw [aggLoop, Except.ok.injEq] at h
    rw [← h]
    exact hg
  | cons r0 rest ih =>
    rw [aggLoop] at h
    split at h
    · exact absurd h (by simp)
    · rename_i st1 hstep
      obtain ⟨a, s, t, _, _, _, hpp⟩ := aggStep_ok st st1 r0 hstep
      exact ih st1 h (processPairs_good _ _ _ _ _ hpp hg)

theorem pad2_fst_none (bs cs : List (List String)) (r : Rec3) (hr : r ∈ pad2 bs cs) :
    r.1 = none := by
  induction bs generalizing cs with
  | nil =>
    rw [pad2, List.mem_map] at hr
    obtain ⟨c, _, rfl⟩ := hr
    rfl
  | cons b bs ih =>
    rw [pad2] at hr
    rcases List.mem_cons.mp hr with rfl | hr
    · rfl
    · exact ih cs.tail hr

theorem zip_all_some_lengths (as bs cs : List (List String))
    (h : ∀ r ∈ zipLongest3 as bs cs, r.1 ≠ none ∧ r.2.1 ≠ none ∧ r.2.2 ≠ none) :
    as.length = bs.length ∧ bs.length = cs.length := by
  induction as generalizing bs cs with
  | nil =>
    cases bs with
    | nil =>
      cases cs with
      | nil => exact ⟨rfl, rfl⟩
      | cons c cs =>
        exfalso
        have hm : ((none, none, some c) : Rec3) ∈ zipLongest3 [] [] (c :: cs) := by
          rw [zipLongest3, pad2]
          simp
        exact (h _ hm).1 rfl
    | cons b bs =>
      exfalso
      have hm : ((none, some b, cs.head?) : Rec3) ∈ zipLongest3 [] (b :: bs) cs := by
        rw [zipLongest3, pad2]
        exact List.mem_cons_self _ _
      exact (h _ hm).1 rfl
  | cons a as ih =>
    have hm : ((some a, bs.head?, cs.head?) : Rec3) ∈ zipLongest3 (a :: as) bs cs := by
      rw [zipLongest3]
      exact List.mem_cons_self _ _
    obtain ⟨_, hb, hc⟩ := h _ hm
    cases bs with
    | nil => exact absurd rfl hb
    | cons b bs =>
      cases cs with
      | nil => exact absurd rfl hc
      | cons c cs =>
        have ht : ∀ r ∈ zipLongest3 as bs cs, r.1 ≠ none ∧ r.2.1 ≠ none ∧ r.2.2 ≠ none := by
          intro r hr
          apply h
          rw [zipLongest3]
          exact List.mem_cons_of_mem _ hr
        obtain ⟨h1, h2⟩ := ih bs cs ht
        exact ⟨by simpa using h1, by simpa using h2⟩

theorem zip_mem_fst (as bs cs : List (List String)) (a : List String) (ha : a ∈ as) :
    ∃ r ∈ zipLongest3 as bs cs, r.1 = some a := by
  induction as generalizing bs cs with
  | nil => cases ha
  | cons a0 as ih =>
    rcases List.mem_cons.mp ha with rfl | ha
    · exact ⟨(some a, bs.head?, cs.head?), by rw [zipLongest3]; exact List.mem_cons_self _ _, rfl⟩
    · obtain ⟨r, hr, hfst⟩ := ih bs.tail cs.tail ha
      exact ⟨r, by rw [zipLongest3]; exact List.mem_cons_of_mem _ hr, hfst⟩

theorem maxEntry_mem (e : Nat × Nat) (l : List (Nat × Nat)) : maxEntry e l ∈ e :: l := by
  induction l generalizing e with
  | nil => simp [maxEntry]
  | cons q rest ih =>
    rw [maxEntry]
    by_cases h : q.2 > e.2
    · rw [if_pos h]
      exact List.mem_cons_of_mem e (ih q)
    · rw [if_neg h]
      rcases List.mem_cons.mp (ih e) with h1 | h1
      · rw [h1]
        exact List.mem_cons_self _ _
      · exact List.mem_cons_of_mem _ (List.mem_cons_of_mem _ h1)

theorem maxEntry_le (e : Nat × Nat) (l : List (Nat × Nat)) :
    ∀ q ∈ e :: l, q.2 ≤ (maxEntry e l).2 := by
  induction l generalizing e with
  | nil =>
    intro q hq
    rcases List.mem_cons.mp hq with rfl | hq
    · exact le_refl _
    · cases hq
  | cons p rest ih =>
    intro q hq
    rw [maxEntry]
    by_cases h : p.2 > e.2
    · rw [if_pos h]
      rcases List.mem_cons.mp hq with rfl | hq'
      · exact le_trans (le_of_lt h) (ih p p (List.mem_cons_self _ _))
      · exact ih p q hq'
    · rw [if_neg h]
      rcases List.mem_cons.mp hq with rfl | hq'
      · exact ih q q (List.mem_cons_self _ _)
      · rcases List.mem_cons.mp hq' with rfl | hq''
        · exact le_trans (not_lt.mp h) (ih e e (List.mem_cons_self _ _))
        · exact ih e q (List.mem_cons_of_mem _ hq'')

theorem maxEntry_first (e : Nat × Nat) (l : List (Nat × Nat)) :
    ∃ i, (e :: l).get? i = some (maxEntry e l) ∧
      ∀ j, j < i → ∀ q, (e :: l).get? j = some q → q.2 < (maxEntry e l).2 := by
  induction l generalizing e with
  | nil =>
    refine ⟨0, rfl, ?_⟩
    intro j hj
    exact absurd hj (Nat.not_lt_zero j)
  | cons p rest ih =>
    rw [maxEntry]
    by_cases h : p.2 > e.2
    · rw [if_pos h]
      obtain ⟨i, hi, hpre⟩ := ih p
      refine ⟨i + 1, by simpa using hi, ?_⟩
      intro j hj q hq
      cases j with
      | zero =>
        have hqe : q = e := by simpa using hq.symm
        rw [hqe]
        exact lt_of_lt_of_le h (maxEntry_le p rest p (List.mem_cons_self _ _))
      | succ j' =>
        exact hpre j' (by omega) q (by simpa using hq)
    · rw [if_neg h]
      obtain ⟨i, hi, hpre⟩ := ih e
      cases i with
      | zero =>
        refine ⟨0, by simpa using hi, ?_⟩
        intro j hj
        exact absurd hj (Nat.not_lt_zero j)
      | succ k =>
        refine ⟨k + 2, by simpa using hi, ?_⟩
        intro j hj q hq
        match j with
        | 0 =>
          have hqe : q = e := by simpa using hq.symm
          rw [hqe]
          exact hpre 0 (by omega) e rfl
        | 1 =>
          have hqp : q = p := by simpa using hq.symm
          rw [hqp]
          exact lt_of_le_of_lt (not_lt.mp h) (hpre 0 (by omega) e rfl)
        | (j'' + 2) =>
          exact hpre (j'' + 1) (by omega) q (by simpa using hq)

theorem foldl_assocSet_append (freq : FreqMap) :
    ∀ acc : List (Nat × Nat),
      (freq.map Prod.fst).Nodup →
      (∀ k ∈ freq.map Prod.fst, hasKey k acc = false) →
      freq.foldl (fun m p => assocSet m p.1 (maxByGet p.2)) acc
        = acc ++ freq.map (fun p => (p.1, maxByGet p.2)) := by
  induction freq with
  | nil =>
    intro acc _ _
    simp
  | cons p rest ih =>
    intro acc hnd hdisj
    have hnd' : (p.1 :: rest.map Prod.fst).Nodup := by simpa using hnd
    rw [List.foldl_cons]
    have h1 : assocSet acc p.1 (maxByGet p.2) = acc ++ [(p.1, maxByGet p.2)] := by
      unfold assocSet
      rw [if_neg]
      rw [hdisj p.1 (by simp)]
      simp
    rw [h1]
    rw [ih (acc ++ [(p.1, maxByGet p.2)]) (List.nodup_cons.mp hnd').2 ?_]
    · simp
    · intro k hk
      rw [hasKey_append]
      have hk1 : hasKey k acc = false :=
        hdisj k (by rw [List.map_cons]; exact List.mem_cons_of_mem _ hk)
      have hk2 : hasKey k [(p.1, maxByGet p.2)] = false := by
        rw [hasKey_false_iff]
        simp only [List.map_cons, List.map_nil, List.mem_singleton]
        intro he
        rw [he] at hk
        exact (List.nodup_cons.mp hnd').1 hk
      rw [hk1, hk2]
      rfl

theorem alignDictOf_eq_map (freq : FreqMap) (hnd : (freq.map Prod.fst).Nodup) :
    alignDictOf freq = freq.map (fun p => (p.1, maxByGet p.2)) := by
  unfold alignDictOf
  have := foldl_assocSet_append freq [] hnd (fun k _ => rfl)
  simpa using this

theorem binarize_ntok (d : Dictionary) (lines : List (List String)) :
    (binarize d lines).ntok = elemTotal (binarize d lines).items := by
  induction lines with
  | nil => rfl
  | cons ws rest ih => simp [binarize, elemTotal, ih]

theorem binarize_nunk (d : Dictionary) (lines : List (List String)) :
    (binarize d lines).nunk = elemUnkCount (binarize d lines).items := by
  induction lines with
  | nil => rfl
  | cons ws rest ih => simp [binarize, elemUnkCount, ih]

/-! ## Claim theorems -/

/-- C1: whenever the alignment, source and target files do not all have the
same number of lines, the aggregator fails fatally (the `zip_longest` fill
value `None` crashes line processing); it never pads or truncates and reports
success. -/
theorem aggregate_length_mismatch_fatal (sd td : Dictionary)
    (aligns srcs tgts : List (List String))
    (h : ¬(aligns.length = srcs.length ∧ srcs.length = tgts.length)) :
    ∃ e, aggregate sd td aligns srcs tgts = .error e := by
  cases hres : aggregate sd td aligns srcs tgts with
  | error e => exact ⟨e, rfl⟩
  | ok st =>
    exfalso
    apply h
    apply zip_all_some_lengths
    intro r hr
    unfold aggregate at hres
    obtain ⟨st1, st1', hstep⟩ := aggLoop_ok_forall _ _ _ hres r hr
    obtain ⟨a, s, t, rfl, _⟩ := aggStep_ok _ _ _ hstep
    simp

theorem aggregate_length_mismatch_fatal_witness :
    ¬((([] : List (List String)).length = [["a"]].length) ∧
        ([["a"]].length = ([] : List (List String)).length)) ∧
    ∃ e, aggregate sdA tdX [] [["a"]] [] = .error e :=
  ⟨by decide, aggregate_length_mismatch_fatal sdA tdX [] [["a"]] [] (by decide)⟩

/-- C2 counterexample: a pair whose source side resolves to the unknown index
and whose target side resolves to the end-of-sequence index is silently
skipped (the asserts at lines 124-127 sit inside the `!= unk` guard at line
123), and aggregation reports success with an empty frequency table — the
claim demands a fatal abort here. -/
theorem aggregate_unk_eos_pair_silently_skipped :
    (tokenizeLine false sdA ["q"]).2.get? 0 = some unkIdx ∧
    (tokenizeLine false tdX ["x"]).2.get? 1 = some eosIdx ∧
    aggregate sdA tdX [["0-1"]] [["q"]] [["x"]] = .ok ⟨sdA, tdX, []⟩ :=
  ⟨rfl, rfl, rfl⟩

/-- C2 (amended): a pair either of whose resolved indices is the unknown index
is skipped without counting — even when the other side is pad or
end-of-sequence; only when neither side is unknown does a pad or
end-of-sequence resolved index abort aggregation with a fatal assertion
error. -/
theorem countPair_skip_unk_assert_pad_eos (freq : FreqMap) (srcidx tgtidx : Nat) :
    ((srcidx = unkIdx ∨ tgtidx = unkIdx) → countPair freq srcidx tgtidx = .ok freq) ∧
    (srcidx ≠ unkIdx → tgtidx ≠ unkIdx →
      (srcidx = padIdx ∨ srcidx = eosIdx ∨ tgtidx = padIdx ∨ tgtidx = eosIdx) →
      countPair freq srcidx tgtidx = .error .assertionError) := by
  constructor
  · intro hu
    unfold countPair
    rw [if_neg]
    intro hcon
    rcases hu with hu | hu
    · exact hcon.1 hu
    · exact hcon.2 hu
  · intro h1 h2 h3
    unfold countPair
    rw [if_pos ⟨h1, h2⟩, if_pos h3]

theorem countPair_skip_unk_assert_pad_eos_witness :
    countPair [] unkIdx eosIdx = .ok [] ∧
    countPair [] 4 eosIdx = .error .assertionError :=
  ⟨(countPair_skip_unk_assert_pad_eos [] unkIdx eosIdx).1 (Or.inl rfl),
   (countPair_skip_unk_assert_pad_eos [] 4 eosIdx).2 (by decide) (by decide) (by decide)⟩

/-- C3: for every source index present in the final frequency table, the
target index emitted by `max(freq_map[srcidx], key=freq_map[srcidx].get)`
carries a count that no co-occurring target index strictly exceeds. -/
theorem aggregate_best_alignment_maximal (sd td : Dictionary)
    (aligns srcs tgts : List (List String)) (st : AggSt)
    (h : aggregate sd td aligns srcs tgts = .ok st) :
    ∀ p ∈ st.freq, ∃ c, (maxByGet p.2, c) ∈ p.2 ∧ ∀ q ∈ p.2, q.2 ≤ c := by
  intro p hp
  have hgood : goodFreq st.freq := by
    unfold aggregate at h
    exact aggLoop_goodFreq _ _ _ h ⟨by simp, by simp⟩
  have hne : p.2 ≠ [] := hgood.2 p hp
  cases hsub : p.2 with
  | nil => exact absurd hsub hne
  | cons q rest =>
    refine ⟨(maxEntry q rest).2, ?_, ?_⟩
    · have := maxEntry_mem q rest
      simpa [maxByGet] using this
    · exact maxEntry_le q rest

theorem aggregate_best_alignment_maximal_witness :
    ∃ c, (maxByGet [(4, 1), (5, 1)], c) ∈ ([(4, 1), (5, 1)] : SubTable) ∧
      ∀ q ∈ ([(4, 1), (5, 1)] : SubTable), q.2 ≤ c :=
  aggregate_best_alignment_maximal sdAB tdXY [["0-0", "0-1", "1-1"]] [["a", "b"]]
    [["x", "y"]] ⟨sdAB, tdXY, [(4, [(4, 1), (5, 1)]), (5, [(5, 1)])]⟩ rfl
    (4, [(4, 1), (5, 1)]) (by decide)

/-- C4: the alignment output holds exactly one line per source index of the
frequency table, in the table's key iteration order, each line being the
source symbol, one space, and the chosen target symbol. -/
theorem aggregate_output_lines_format (sd td : Dictionary)
    (aligns srcs tgts : List (List String)) (st : AggSt)
    (h : aggregate sd td aligns srcs tgts = .ok st) :
    outputLines st = st.freq.map
      (fun p => st.srcDict.getSymbol p.1 ++ " " ++ st.tgtDict.getSymbol (maxByGet p.2)) := by
  have hgood : goodFreq st.freq := by
    unfold aggregate at h
    exact aggLoop_goodFreq _ _ _ h ⟨by simp, by simp⟩
  unfold outputLines
  rw [alignDictOf_eq_map st.freq hgood.1, List.map_map]
  rfl

theorem aggregate_output_lines_format_witness :
    outputLines ⟨sdAB, tdXY, [(4, [(4, 1), (5, 1)]), (5, [(5, 1)])]⟩ =
      ([(4, [(4, 1), (5, 1)]), (5, [(5, 1)])] : FreqMap).map
        (fun p => sdAB.getSymbol p.1 ++ " " ++ tdXY.getSymbol (maxByGet p.2)) :=
  aggregate_output_lines_format sdAB tdXY [["0-0", "0-1", "1-1"]] [["a", "b"]]
    [["x", "y"]] ⟨sdAB, tdXY, [(4, [(4, 1), (5, 1)]), (5, [(5, 1)])]⟩ rfl

/-- C5: on the spec's worked example (source "a b", target "x y", alignment
"0-0 0-1 1-1"), the aggregator builds exactly the frequency table
`[idx a -> [idx x -> 1, idx y -> 1], idx b -> [idx y -> 1]]` and the emitted
best alignment for `b` is `y`. -/
theorem aggregate_spec_example :
    aggregate sdAB tdXY [["0-0", "0-1", "1-1"]] [["a", "b"]] [["x", "y"]] =
      .ok ⟨sdAB, tdXY,
        [(sdAB.lookup "a", [(tdXY.lookup "x", 1), (tdXY.lookup "y", 1)]),
         (sdAB.lookup "b", [(tdXY.lookup "y", 1)])]⟩ ∧
    (sdAB.lookup "b", tdXY.lookup "y") ∈ alignDictOf
        [(sdAB.lookup "a", [(tdXY.lookup "x", 1), (tdXY.lookup "y", 1)]),
         (sdAB.lookup "b", [(tdXY.lookup "y", 1)])] :=
  ⟨rfl, by decide⟩

/-- C6: if any alignment line contains a malformed pair token (not of the
form `<integer>-<integer>`), aggregation fails fatally rather than skipping
the token or finishing the file. -/
theorem aggregate_malformed_pair_fatal (sd td : Dictionary)
    (aligns srcs tgts : List (List String))
    (h : ∃ line ∈ aligns, ∃ tok ∈ line, parsePair tok = none) :
    ∃ e, aggregate sd td aligns srcs tgts = .error e := by
  cases hres : aggregate sd td aligns srcs tgts with
  | error e => exact ⟨e, rfl⟩
  | ok st =>
    exfalso
    obtain ⟨line, hline, tok, htok, hparse⟩ := h
    unfold aggregate at hres
    obtain ⟨r, hr, hfst⟩ := zip_mem_fst aligns srcs tgts line hline
    obtain ⟨st1, st1', hstep⟩ := aggLoop_ok_forall _ _ _ hres r hr
    obtain ⟨a, s, t, heq, _, _, hpp⟩ := aggStep_ok _ _ _ hstep
    rw [heq] at hfst
    have ha : a = line := by simpa using hfst
    rw [ha] at hpp
    exact processPairs_ok_parse _ _ _ _ _ hpp tok htok hparse

theorem aggregate_malformed_pair_fatal_witness :
    (∃ line ∈ [["0x1"]], ∃ tok ∈ line, parsePair tok = none) ∧
    ∃ e, aggregate sdA tdX [["0x1"]] [["a"]] [["x"]] = .error e :=
  ⟨by decide, aggregate_malformed_pair_fatal sdA tdX [["0x1"]] [["a"]] [["x"]] (by decide)⟩

/-- C7: for a binarized file with a nonzero token count, the reported
replaced percentage equals `100 * unknownCount / tokenCount`, where the
unknown count is exactly the number of encoded elements that resolved to the
unknown index and the token count is the total number of encoded elements. -/
theorem makeBinaryDataset_unknown_rate (d : Dictionary) (lines : List (List String))
    (h : (binarize d lines).ntok ≠ 0) :
    (makeBinaryDataset d lines).2 =
      .ok ((100 * (elemUnkCount ((makeBinaryDataset d lines).1.items) : ℚ)) /
        (elemTotal ((makeBinaryDataset d lines).1.items) : ℚ)) := by
  unfold makeBinaryDataset
  rw [if_neg h]
  rw [binarize_ntok, binarize_nunk]

theorem makeBinaryDataset_unknown_rate_witness :
    (binarize sdA [["a"]]).ntok ≠ 0 ∧
    (makeBinaryDataset sdA [["a"]]).2 =
      .ok ((100 * (elemUnkCount ((makeBinaryDataset sdA [["a"]]).1.items) : ℚ)) /
        (elemTotal ((makeBinaryDataset sdA [["a"]]).1.items) : ℚ)) :=
  ⟨by decide, makeBinaryDataset_unknown_rate sdA [["a"]] (by decide)⟩

/-- C8: aggregation never extends either dictionary — tokenization is run
without vocabulary extension, so on any successful run the source and target
dictionaries after aggregation equal the ones it started from. -/
theorem aggregate_preserves_dictionaries (sd td : Dictionary)
    (aligns srcs tgts : List (List String)) (st : AggSt)
    (h : aggregate sd td aligns srcs tgts = .ok st) :
    st.srcDict = sd ∧ st.tgtDict = td := by
  unfold aggregate at h
  exact aggLoop_dicts _ _ _ h

theorem aggregate_preserves_dictionaries_witness :
    AggSt.srcDict ⟨sdAB, tdXY, [(4, [(4, 1), (5, 1)]), (5, [(5, 1)])]⟩ = sdAB ∧
    AggSt.tgtDict ⟨sdAB, tdXY, [(4, [(4, 1), (5, 1)]), (5, [(5, 1)])]⟩ = tdXY :=
  aggregate_preserves_dictionaries sdAB tdXY [["0-0", "0-1", "1-1"]] [["a", "b"]]
    [["x", "y"]] ⟨sdAB, tdXY, [(4, [(4, 1), (5, 1)]), (5, [(5, 1)])]⟩ rfl

/-- C9: for every source index of the final frequency table, the emitted
target index occupies a position of its sub-table (insertion = first
co-occurrence order) every strictly earlier entry of which has a strictly
smaller count, and no entry anywhere has a larger count: ties go to the
first-inserted target index, so the output is deterministic. -/
theorem aggregate_tie_break_first_inserted (sd td : Dictionary)
    (aligns srcs tgts : List (List String)) (st : AggSt)
    (h : aggregate sd td aligns srcs tgts = .ok st) :
    ∀ p ∈ st.freq, ∃ c i, p.2.get? i = some (maxByGet p.2, c) ∧
      (∀ q ∈ p.2, q.2 ≤ c) ∧
      ∀ j, j < i → ∀ q, p.2.get? j = some q → q.2 < c := by
  intro p hp
  have hgood : goodFreq st.freq := by
    unfold aggregate at h
    exact aggLoop_goodFreq _ _ _ h ⟨by simp, by simp⟩
  have hne : p.2 ≠ [] := hgood.2 p hp
  cases hsub : p.2 with
  | nil => exact absurd hsub hne
  | cons q rest =>
    obtain ⟨i, hi, hpre⟩ := maxEntry_first q rest
    refine ⟨(maxEntry q rest).2, i, ?_, ?_, ?_⟩
    · simpa [maxByGet] using hi
    · exact maxEntry_le q rest
    · exact hpre

theorem aggregate_tie_break_first_inserted_witness :
    ∃ c i, ([(4, 1), (5, 1)] : SubTable).get? i = some (maxByGet [(4, 1), (5, 1)], c) ∧
      (∀ q ∈ ([(4, 1), (5, 1)] : SubTable), q.2 ≤ c) ∧
      ∀ j, j < i → ∀ q, ([(4, 1), (5, 1)] : SubTable).get? j = some q → q.2 < c :=
  aggregate_tie_break_first_inserted sdAB tdXY [["0-0", "0-1", "1-1"]] [["a", "b"]]
    [["x", "y"]] ⟨sdAB, tdXY, [(4, [(4, 1), (5, 1)]), (5, [(5, 1)])]⟩ rfl
    (4, [(4, 1), (5, 1)]) (by decide)

/-- C10: when binarization yields a zero token count (e.g. an empty input
file), the statistics report divides by zero, so the invocation aborts with
the division error and the dataset's index artifact is never finalized. -/
theorem makeBinaryDataset_zero_tokens_aborts (d : Dictionary) (lines : List (List String))
    (h : (binarize d lines).ntok = 0) :
    (makeBinaryDataset d lines).2 = .error "ZeroDivisionError" ∧
    (makeBinaryDataset d lines).1.finalized = false := by
  unfold makeBinaryDataset
  rw [if_pos h]
  exact ⟨rfl, rfl⟩

theorem makeBinaryDataset_zero_tokens_aborts_witness :
    (binarize sdA ([] : List (List String))).ntok = 0 ∧
    ((makeBinaryDataset sdA ([] : List (List String))).2 = .error "ZeroDivisionError" ∧
     (makeBinaryDataset sdA ([] : List (List String))).1.finalized = false) :=
  ⟨rfl, makeBinaryDataset_zero_tokens_aborts sdA [] rfl⟩

end FairseqPreprocess
